import Mathlib

/-!
# WinHash wrapper layer (`libs/WinHash.h`)

A shallow embedding of the inline wrapper functions of `WinHash.h`:
the CRC32 wrapper (`WHInitCRC32`, `WHUpdateCRC32`, `WHFinishCRC32`) and the
two-level ED2K hasher (`WHInitED2K`, `WHUpdateED2K`, `WHFinishED2K`).

The primitive engines (`crc32`, `MD4Init`, `MD4Update`, `MD4Final`) are only
declared in the header; they are taken as parameters (`crc32`, `md4`) and an
MD4 context is represented by the bytes it has absorbed since its last
`MD4Init` together with its `result` field.
-/

namespace WinHash

/-- C `BYTE`, kept as a natural number. -/
abbrev BYTE := Nat

/-- Subtraction of two `UINT` values, wrapping modulo `2^32` as the C operator
`-=` does on unsigned 32-bit operands. -/
def subUINT (a b : Nat) : Nat := (a % 2 ^ 32 + (2 ^ 32 - b % 2 ^ 32)) % 2 ^ 32

/-! ## MD4 engine (external, `MD4Init` / `MD4Update` / `MD4Final`) -/

/-- `MD4_DIGEST_LENGTH`. -/
def MD4_DIGEST_LENGTH : Nat := 16

/-- `MD4_CTX`: the fields `state`, `count` and `buffer` are represented by
`absorbed`, the bytes fed to the context since its last `MD4Init`; `result` is
the `BYTE result[16]` field. -/
structure MD4_CTX where
  absorbed : List BYTE
  result : List BYTE
  deriving DecidableEq, Repr

/-- `MD4Init(pContext)`: start a fresh computation; the `result` field is not
written. -/
def MD4Init (pContext : MD4_CTX) : MD4_CTX :=
  { pContext with absorbed := [] }

/-- `MD4Update(pContext, pbIn, cbIn)`: absorb the first `cbIn` bytes at `pbIn`. -/
def MD4Update (pContext : MD4_CTX) (pbIn : List BYTE) (cbIn : Nat) : MD4_CTX :=
  { pContext with absorbed := pContext.absorbed ++ pbIn.take cbIn }

/-- `MD4Final(pContext)`: write the MD4 digest of everything absorbed since the
last `MD4Init` into the `result` field. -/
def MD4Final (md4 : List BYTE → List BYTE) (pContext : MD4_CTX) : MD4_CTX :=
  { pContext with result := md4 pContext.absorbed }

/-! ## ED2K context -/

/-- The value of the `PBYTE result` field of `WHCTXED2K`: the address of
`ctxChunk.result`, the address of `ctxList.result`, or any other address
(as in a context that has not been initialised). -/
inductive ResultPtr where
  | ctxChunkResult
  | ctxListResult
  | other (addr : Nat)
  deriving DecidableEq, Repr

/-- `WHCTXED2K`. -/
structure WHCTXED2K where
  ctxList : MD4_CTX
  ctxChunk : MD4_CTX
  result : ResultPtr
  cbChunkRemaining : Nat
  deriving DecidableEq, Repr

/-- `WHInitED2K`. -/
def WHInitED2K (pContext : WHCTXED2K) : WHCTXED2K :=
  { ctxList := MD4Init pContext.ctxList
    ctxChunk := MD4Init pContext.ctxChunk
    cbChunkRemaining := 9500 <<< 10
    result := ResultPtr.ctxChunkResult }

/-- `WHUpdateED2K(pContext, pbIn, cbIn)` with `cbIn` the length of the buffer
`pbIn`.  The `if` block is the first component of the pair: it yields the
context, the advanced pointer and the reduced count that the two statements
after the block then use. -/
def WHUpdateED2K (md4 : List BYTE → List BYTE) (pContext : WHCTXED2K)
    (pbIn : List BYTE) : WHCTXED2K :=
  let cbIn := pbIn.length
  let afterIf : WHCTXED2K × List BYTE × Nat :=
    if cbIn ≥ pContext.cbChunkRemaining then
      -- Finish off the current chunk and add it to the list hash
      let chunk1 := MD4Update pContext.ctxChunk pbIn pContext.cbChunkRemaining
      let chunk2 := MD4Final md4 chunk1
      let list1 := MD4Update pContext.ctxList chunk2.result MD4_DIGEST_LENGTH
      let pbIn1 := pbIn.drop pContext.cbChunkRemaining
      let cbIn1 := cbIn - pContext.cbChunkRemaining
      -- Reset the chunk context; the result is now the list hash
      ({ ctxList := list1
         ctxChunk := MD4Init chunk2
         cbChunkRemaining := 9500 <<< 10
         result := ResultPtr.ctxListResult }, pbIn1, cbIn1)
    else
      (pContext, pbIn, cbIn)
  let ctx := afterIf.1
  let pbIn2 := afterIf.2.1
  let cbIn2 := afterIf.2.2
  { ctx with
    ctxChunk := MD4Update ctx.ctxChunk pbIn2 cbIn2
    cbChunkRemaining := subUINT ctx.cbChunkRemaining cbIn2 }

/-- `WHFinishED2K`. -/
def WHFinishED2K (md4 : List BYTE → List BYTE) (pContext : WHCTXED2K) : WHCTXED2K :=
  let chunk := MD4Final md4 pContext.ctxChunk
  let list1 := MD4Update pContext.ctxList chunk.result MD4_DIGEST_LENGTH
  { pContext with ctxChunk := chunk, ctxList := MD4Final md4 list1 }

/-- The bytes read through `pContext->result`; `none` when the pointer is
neither of the two digest fields. -/
def visibleDigest (pContext : WHCTXED2K) : Option (List BYTE) :=
  match pContext.result with
  | ResultPtr.ctxChunkResult => some pContext.ctxChunk.result
  | ResultPtr.ctxListResult => some pContext.ctxList.result
  | ResultPtr.other _ => none

/-- `WHUpdateED2K` once per push, in order. -/
def pushAll (md4 : List BYTE → List BYTE) (pContext : WHCTXED2K)
    (pushes : List (List BYTE)) : WHCTXED2K :=
  pushes.foldl (WHUpdateED2K md4) pContext

/-- `WHInitED2K`, then `WHUpdateED2K` once per push, then `WHFinishED2K`. -/
def runED2K (md4 : List BYTE → List BYTE) (pContext : WHCTXED2K)
    (pushes : List (List BYTE)) : WHCTXED2K :=
  WHFinishED2K md4 (pushAll md4 (WHInitED2K pContext) pushes)

/-! ## Reference two-level hash (from the specification's wording) -/

/-- The first `n` consecutive `C`-byte chunks of `S`, followed by what remains
after them. -/
def chunksAux (C : Nat) : Nat → List BYTE → List (List BYTE)
  | 0, S => [S]
  | n + 1, S => S.take C :: chunksAux C n (S.drop C)

/-- The consecutive 9,728,000-byte chunks of `S` followed by the remaining
tail, the tail being the empty chunk when the length of `S` is an exact
multiple of the chunk size. -/
def ed2kChunks (S : List BYTE) : List (List BYTE) :=
  chunksAux 9728000 (S.length / 9728000) S

/-- The two-level hash as the specification words it: plain MD4 of the stream
when it is shorter than one chunk, otherwise MD4 of the concatenation of the
MD4 digests of the chunks of `ed2kChunks`. -/
def refED2K (md4 : List BYTE → List BYTE) (S : List BYTE) : List BYTE :=
  if S.length < 9728000 then md4 S
  else md4 ((ed2kChunks S).map md4).flatten

/-- A 16-byte-valued function standing in for MD4 when a statement is
instantiated at concrete data: every digest byte is the input length modulo
256. -/
def lengthDigest (S : List BYTE) : List BYTE :=
  List.replicate 16 (S.length % 256)

/-- A buffer of `n` zero bytes. -/
def zeroBytes (n : Nat) : List BYTE := List.replicate n 0

/-- A context as it may look before initialisation. -/
def staleCtx : WHCTXED2K :=
  { ctxList := { absorbed := [7], result := [1, 2] }
    ctxChunk := { absorbed := [8, 9], result := [] }
    result := ResultPtr.other 0
    cbChunkRemaining := 5 }

/-- The context reached after a stream that consists of the full chunks `chunks`
followed by the started, not yet full chunk `cur`. -/
structure Tracks (md4 : List BYTE → List BYTE) (ctx : WHCTXED2K)
    (chunks : List (List BYTE)) (cur : List BYTE) : Prop where
  list_absorbed : ctx.ctxList.absorbed = (chunks.map md4).flatten
  chunk_absorbed : ctx.ctxChunk.absorbed = cur
  remaining : ctx.cbChunkRemaining = 9728000 - cur.length
  result : ctx.result =
    if chunks = [] then ResultPtr.ctxChunkResult else ResultPtr.ctxListResult
  full : ∀ c ∈ chunks, c.length = 9728000
  cur_lt : cur.length < 9728000

/-! ## CRC32 wrapper -/

/-- `WHCTXCRC32`, a union of `UINT32 state` and `BYTE result[4]`: the context
is its 32-bit value. -/
structure WHCTXCRC32 where
  state : Nat
  deriving DecidableEq, Repr

/-- The byte `result[i]` of the union on a little-endian layout: byte `i` of
`state`, least significant first. -/
def WHCTXCRC32.resultByte (ctx : WHCTXCRC32) (i : Nat) : BYTE :=
  ctx.state / 2 ^ (8 * i) % 256

/-- Modelled from the spec: `SwapV32` of `SwapIntrinsics.h`, which is not among
the sources, as the reversal of the four bytes of a 32-bit value. -/
def SwapV32 (v : Nat) : Nat :=
  v % 256 * 2 ^ 24 + v / 2 ^ 8 % 256 * 2 ^ 16 + v / 2 ^ 16 % 256 * 2 ^ 8 + v / 2 ^ 24 % 256

/-- `WHInitCRC32`. -/
def WHInitCRC32 (_pContext : WHCTXCRC32) : WHCTXCRC32 :=
  { state := 0 }

/-- `WHUpdateCRC32(pContext, pbIn, cbIn)` with `cbIn` the length of the buffer
`pbIn`; `crc32` is the external primitive. -/
def WHUpdateCRC32 (crc32 : Nat → List BYTE → Nat) (pContext : WHCTXCRC32)
    (pbIn : List BYTE) : WHCTXCRC32 :=
  { state := crc32 pContext.state pbIn }

/-- `WHFinishCRC32`. -/
def WHFinishCRC32 (pContext : WHCTXCRC32) : WHCTXCRC32 :=
  { state := SwapV32 pContext.state }

/-- `WHInitCRC32`, then `WHUpdateCRC32` once per push, then `WHFinishCRC32`. -/
def runCRC32 (crc32 : Nat → List BYTE → Nat) (pContext : WHCTXCRC32)
    (pushes : List (List BYTE)) : WHCTXCRC32 :=
  WHFinishCRC32 (pushes.foldl (WHUpdateCRC32 crc32) (WHInitCRC32 pContext))

/-- One bit step of the reflected CRC-32 (polynomial `0xEDB88320`). -/
def crcBit (c : Nat) : Nat :=
  if c % 2 = 1 then (c / 2) ^^^ 0xEDB88320 else c / 2

/-- One byte step of CRC-32. -/
def crcByte (c : Nat) (b : BYTE) : Nat :=
  crcBit (crcBit (crcBit (crcBit (crcBit (crcBit (crcBit (crcBit (c ^^^ b))))))))

/-- The standard CRC-32, an instance of the external `crc32` primitive used to
instantiate statements at concrete data. -/
def crc32IEEE (uInitial : Nat) (pbIn : List BYTE) : Nat :=
  pbIn.foldl crcByte (uInitial ^^^ 0xFFFFFFFF) ^^^ 0xFFFFFFFF

/-! ## Push sequences of the ED2K hasher -/

/-- The operands `(minuend, subtrahend)` of the last statement of `WHUpdateED2K`,
`pContext->cbChunkRemaining -= cbIn`: after the `if` block the counter is the
chunk size and `cbIn` the residual count when the block ran, and both are as
passed in otherwise. -/
def finalSubOperands (pContext : WHCTXED2K) (pbIn : List BYTE) : Nat × Nat :=
  if pbIn.length ≥ pContext.cbChunkRemaining then
    (9500 <<< 10, pbIn.length - pContext.cbChunkRemaining)
  else
    (pContext.cbChunkRemaining, pbIn.length)

/-- Every push of the sequence satisfies `cbIn < cbChunkRemaining + 9728000` at
the time of its `WHUpdateED2K` call. -/
def admissible (md4 : List BYTE → List BYTE) :
    WHCTXED2K → List (List BYTE) → Bool
  | _, [] => true
  | ctx, p :: ps =>
    decide (p.length < ctx.cbChunkRemaining + 9728000) &&
      admissible md4 (WHUpdateED2K md4 ctx p) ps

/-- The byte counters of a context that has been pushed `t` bytes in total:
the room left in the current chunk and the number of bytes the chunk engine has
absorbed since its last reset. -/
structure Counts (ctx : WHCTXED2K) (t : Nat) : Prop where
  remaining : ctx.cbChunkRemaining = 9728000 - t % 9728000
  absorbed : ctx.ctxChunk.absorbed.length = t % 9728000

/-! ## Digest and hex buffer sizes -/

/-- `MD5_DIGEST_LENGTH`. -/
def MD5_DIGEST_LENGTH : Nat := 16

/-- `SHA1_DIGEST_LENGTH`. -/
def SHA1_DIGEST_LENGTH : Nat := 20

/-- `SHA256_DIGEST_LENGTH`. -/
def SHA256_DIGEST_LENGTH : Nat := 32

/-- `SHA512_DIGEST_LENGTH`. -/
def SHA512_DIGEST_LENGTH : Nat := 64

/-- The size of the `BYTE result[4]` member of `WHCTXCRC32`. -/
def CRC32_RESULT_SIZE : Nat := 4

/-- `MD4_DIGEST_STRING_LENGTH`. -/
def MD4_DIGEST_STRING_LENGTH : Nat := MD4_DIGEST_LENGTH * 2 + 1

/-- `MD5_DIGEST_STRING_LENGTH`. -/
def MD5_DIGEST_STRING_LENGTH : Nat := MD5_DIGEST_LENGTH * 2 + 1

/-- `SHA1_DIGEST_STRING_LENGTH`. -/
def SHA1_DIGEST_STRING_LENGTH : Nat := SHA1_DIGEST_LENGTH * 2 + 1

/-- `SHA256_DIGEST_STRING_LENGTH`. -/
def SHA256_DIGEST_STRING_LENGTH : Nat := SHA256_DIGEST_LENGTH * 2 + 1

/-- `SHA512_DIGEST_STRING_LENGTH`. -/
def SHA512_DIGEST_STRING_LENGTH : Nat := SHA512_DIGEST_LENGTH * 2 + 1

/-- The array lengths of the `TCHAR` members of `WHRESULTEX`, in declaration
order. -/
structure WHRESULTEX_capacity where
  szHexCRC32 : Nat
  szHexMD4 : Nat
  szHexMD5 : Nat
  szHexSHA1 : Nat
  szHexSHA256 : Nat
  szHexSHA512 : Nat
  deriving DecidableEq, Repr

/-- `WHRESULTEX` as declared: `szHexCRC32[9]`, `szHexMD4[33]`, `szHexMD5[33]`,
`szHexSHA1[41]`, `szHexSHA256[65]`, `szHexSHA512[129]`. -/
def WHRESULTEX_sizes : WHRESULTEX_capacity :=
  { szHexCRC32 := 9
    szHexMD4 := 33
    szHexMD5 := 33
    szHexSHA1 := 41
    szHexSHA256 := 65
    szHexSHA512 := 129 }

/-! ## Hex codec (`WHByteToHex` / `WHHexToByte`) -/

/-- C `TCHAR`, kept as its character code, a natural number. -/
abbrev TCHAR := Nat

/-- `WHFMT_UPPERCASE`. -/
def WHFMT_UPPERCASE : Nat := 0x00

/-- `WHFMT_LOWERCASE`. -/
def WHFMT_LOWERCASE : Nat := 0x20

/-- Modelled from the spec: the hex digit character of a nibble, which
`WinHash.c` (not among the sources) produces inside `WHByteToHex`; the alphabet
is `0-9a-f` for the lowercase mode and `0-9A-F` otherwise. -/
def hexDigit (uCaseMode : Nat) (nibble : Nat) : Nat :=
  if nibble < 10 then 48 + nibble
  else if uCaseMode = WHFMT_LOWERCASE then 97 + (nibble - 10)
  else 65 + (nibble - 10)

/-- Modelled from the spec: the value of a hex digit character of either case,
which `WinHash.c` (not among the sources) computes inside `WHHexToByte`; `none`
for any other character. -/
def hexValue (c : Nat) : Option Nat :=
  if 48 ≤ c ∧ c ≤ 57 then some (c - 48)
  else if 65 ≤ c ∧ c ≤ 70 then some (c - 65 + 10)
  else if 97 ≤ c ∧ c ≤ 102 then some (c - 97 + 10)
  else none

/-- Modelled from the spec: `WHByteToHex` of `WinHash.c` (not among the
sources): two hex digit characters per input byte, high nibble first, in the
alphabet selected by the case mode, and no terminator. -/
def WHByteToHex (pbSrc : List BYTE) (uCaseMode : Nat) : List TCHAR :=
  match pbSrc with
  | [] => []
  | b :: bs =>
    hexDigit uCaseMode (b / 16 % 16) :: hexDigit uCaseMode (b % 16) :: WHByteToHex bs uCaseMode

/-- Modelled from the spec: `WHHexToByte` of `WinHash.c` (not among the
sources): parse exactly `2 * byteCount` hex digit characters, of either case,
into `byteCount` bytes; `none` (the `FALSE` return) when a required character is
not a hex digit or is missing. -/
def WHHexToByte (pszSrc : List TCHAR) (byteCount : Nat) : Option (List BYTE) :=
  match byteCount, pszSrc with
  | 0, _ => some []
  | n + 1, hi :: lo :: rest =>
    match hexValue hi, hexValue lo, WHHexToByte rest n with
    | some h, some l, some bs => some ((h * 16 + l) :: bs)
    | _, _, _ => none
  | _ + 1, _ => none

/-! ## Basic facts -/

theorem chunkSize_eq : 9500 <<< 10 = 9728000 := by decide

theorem subUINT_of_le {a b : Nat} (ha : a < 2 ^ 32) (hb : b ≤ a) :
    subUINT a b = a - b := by
  unfold subUINT
  omega

theorem subUINT_zero {a : Nat} (ha : a < 2 ^ 32) : subUINT a 0 = a := by
  unfold subUINT
  omega

theorem zeroBytes_length (n : Nat) : (zeroBytes n).length = n :=
  List.length_replicate n 0

theorem lengthDigest_length (S : List BYTE) : (lengthDigest S).length = 16 := by
  simp [lengthDigest]

/-- The short-push branch of `WHUpdateED2K`. -/
theorem WHUpdateED2K_of_lt (md4 : List BYTE → List BYTE) (ctx : WHCTXED2K)
    (pbIn : List BYTE) (h : pbIn.length < ctx.cbChunkRemaining) :
    WHUpdateED2K md4 ctx pbIn =
      { ctx with
        ctxChunk := { ctx.ctxChunk with absorbed := ctx.ctxChunk.absorbed ++ pbIn }
        cbChunkRemaining := subUINT ctx.cbChunkRemaining pbIn.length } := by
  have hn : ¬ pbIn.length ≥ ctx.cbChunkRemaining := by omega
  simp [WHUpdateED2K, hn, MD4Update]

/-- The rollover branch of `WHUpdateED2K`. -/
theorem WHUpdateED2K_of_ge (md4 : List BYTE → List BYTE) (ctx : WHCTXED2K)
    (pbIn : List BYTE) (h : ctx.cbChunkRemaining ≤ pbIn.length) :
    WHUpdateED2K md4 ctx pbIn =
      { ctxList :=
          { ctx.ctxList with
            absorbed := ctx.ctxList.absorbed ++
              (md4 (ctx.ctxChunk.absorbed ++ pbIn.take ctx.cbChunkRemaining)).take 16 }
        ctxChunk :=
          { absorbed := pbIn.drop ctx.cbChunkRemaining
            result := md4 (ctx.ctxChunk.absorbed ++ pbIn.take ctx.cbChunkRemaining) }
        result := ResultPtr.ctxListResult
        cbChunkRemaining := subUINT 9728000 (pbIn.length - ctx.cbChunkRemaining) } := by
  have hn : pbIn.length ≥ ctx.cbChunkRemaining := h
  simp [WHUpdateED2K, hn, MD4Update, MD4Final, MD4Init, MD4_DIGEST_LENGTH, chunkSize_eq]

theorem take_digest {md4 : List BYTE → List BYTE}
    (hlen : ∀ x, (md4 x).length = 16) (x : List BYTE) : (md4 x).take 16 = md4 x :=
  List.take_of_length_le (by rw [hlen x])

/-- The context produced by `WHInitED2K` tracks the empty stream. -/
theorem Tracks.init (md4 : List BYTE → List BYTE) (ctx0 : WHCTXED2K) :
    Tracks md4 (WHInitED2K ctx0) [] [] := by
  constructor <;> simp [WHInitED2K, MD4Init, chunkSize_eq]

/-- One push that ends before the end of the chunk after the current one keeps
the context in step with the stream. -/
theorem Tracks.push {md4 : List BYTE → List BYTE} (hlen : ∀ x, (md4 x).length = 16)
    {ctx : WHCTXED2K} {chunks : List (List BYTE)} {cur : List BYTE}
    (h : Tracks md4 ctx chunks cur) (p : List BYTE)
    (hp : cur.length + p.length < 2 * 9728000) :
    ∃ chunks1 cur1, Tracks md4 (WHUpdateED2K md4 ctx p) chunks1 cur1 ∧
      chunks1.flatten ++ cur1 = chunks.flatten ++ cur ++ p := by
  have hcur := h.cur_lt
  have hrem := h.remaining
  by_cases hlt : p.length < 9728000 - cur.length
  · rw [WHUpdateED2K_of_lt md4 ctx p (by rw [hrem]; exact hlt)]
    refine ⟨chunks, cur ++ p, ⟨h.list_absorbed, ?_, ?_, h.result, h.full, ?_⟩, ?_⟩
    · simp [h.chunk_absorbed]
    · simp only [List.length_append]
      rw [hrem, subUINT_of_le (by omega) (by omega)]
      omega
    · simp only [List.length_append]
      omega
    · simp
  · rw [WHUpdateED2K_of_ge md4 ctx p (by rw [hrem]; omega)]
    refine ⟨chunks ++ [cur ++ p.take (9728000 - cur.length)],
      p.drop (9728000 - cur.length), ⟨?_, ?_, ?_, ?_, ?_, ?_⟩, ?_⟩
    · simp [h.list_absorbed, h.chunk_absorbed, hrem, take_digest hlen]
    · simp [hrem]
    · simp only [hrem, List.length_drop]
      rw [subUINT_of_le (by omega) (by omega)]
    · simp
    · intro c hc
      rcases List.mem_append.mp hc with hc | hc
      · exact h.full c hc
      · rw [List.mem_singleton.mp hc]
        simp only [List.length_append, List.length_take]
        omega
    · simp only [List.length_drop]
      omega
    · simp

/-- `WHFinishED2K` on a context in step with a stream. -/
theorem Tracks.finish {md4 : List BYTE → List BYTE} (hlen : ∀ x, (md4 x).length = 16)
    {ctx : WHCTXED2K} {chunks : List (List BYTE)} {cur : List BYTE}
    (h : Tracks md4 ctx chunks cur) :
    visibleDigest (WHFinishED2K md4 ctx) =
      some (if chunks = [] then md4 cur
        else md4 (((chunks ++ [cur]).map md4).flatten)) := by
  by_cases hc : chunks = []
  · simp [visibleDigest, WHFinishED2K, MD4Final, h.result, hc, h.chunk_absorbed]
  · simp [visibleDigest, WHFinishED2K, MD4Final, MD4Update, MD4_DIGEST_LENGTH, h.result, hc,
      h.chunk_absorbed, h.list_absorbed, take_digest hlen]

theorem length_flatten_full {chunks : List (List BYTE)}
    (hfull : ∀ c ∈ chunks, c.length = 9728000) :
    chunks.flatten.length = chunks.length * 9728000 := by
  induction chunks with
  | nil => simp
  | cons c cs ih =>
    have hc : c.length = 9728000 := hfull c (List.mem_cons_self c cs)
    have hcs := ih (fun d hd => hfull d (List.mem_cons_of_mem c hd))
    simp only [List.flatten_cons, List.length_append, List.length_cons, hc, hcs]
    ring

theorem chunksAux_flatten (chunks : List (List BYTE)) (cur : List BYTE)
    (hfull : ∀ c ∈ chunks, c.length = 9728000) :
    chunksAux 9728000 chunks.length (chunks.flatten ++ cur) = chunks ++ [cur] := by
  induction chunks with
  | nil => simp [chunksAux]
  | cons c cs ih =>
    have hc : c.length = 9728000 := hfull c (List.mem_cons_self c cs)
    have hcs := ih (fun d hd => hfull d (List.mem_cons_of_mem c hd))
    have ht : List.take 9728000 (c ++ (cs.flatten ++ cur)) = c := by
      rw [← hc]
      simp
    have hd : List.drop 9728000 (c ++ (cs.flatten ++ cur)) = cs.flatten ++ cur := by
      rw [← hc]
      simp
    simp only [List.length_cons, chunksAux, List.flatten_cons, List.append_assoc,
      List.cons_append, List.cons.injEq, ht, hd, hcs, and_self]

/-- The chunk decomposition of the specification, for a stream given as full
chunks followed by a shorter tail. -/
theorem ed2kChunks_flatten (chunks : List (List BYTE)) (cur : List BYTE)
    (hfull : ∀ c ∈ chunks, c.length = 9728000) (hcur : cur.length < 9728000) :
    ed2kChunks (chunks.flatten ++ cur) = chunks ++ [cur] := by
  have hdiv : (chunks.flatten ++ cur).length / 9728000 = chunks.length := by
    rw [List.length_append, length_flatten_full hfull]
    omega
  rw [ed2kChunks, hdiv]
  exact chunksAux_flatten chunks cur hfull

/-- On a context in step with the stream, `WHFinishED2K` makes the visible
digest the reference two-level hash of the stream. -/
theorem Tracks.finish_eq_ref {md4 : List BYTE → List BYTE}
    (hlen : ∀ x, (md4 x).length = 16)
    {ctx : WHCTXED2K} {chunks : List (List BYTE)} {cur : List BYTE}
    (h : Tracks md4 ctx chunks cur) :
    visibleDigest (WHFinishED2K md4 ctx) = some (refED2K md4 (chunks.flatten ++ cur)) := by
  rw [h.finish hlen, refED2K, ed2kChunks_flatten chunks cur h.full h.cur_lt]
  have hl : (chunks.flatten ++ cur).length = chunks.length * 9728000 + cur.length := by
    rw [List.length_append, length_flatten_full h.full]
  have hcur := h.cur_lt
  by_cases hc : chunks = []
  · subst hc
    simp [hcur]
  · have hpos : 0 < chunks.length := List.length_pos.mpr hc
    have hge : ¬ (chunks.flatten ++ cur).length < 9728000 := by
      rw [hl]
      have : 9728000 ≤ chunks.length * 9728000 := Nat.le_mul_of_pos_left _ hpos
      omega
    rw [if_neg hc, if_neg hge]

/-- Pushes of a stream shorter than two chunks keep the context in step with
the stream, however the stream is split. -/
theorem Tracks.pushAll_lt_two {md4 : List BYTE → List BYTE}
    (hlen : ∀ x, (md4 x).length = 16) (pushes : List (List BYTE)) :
    ∀ (ctx : WHCTXED2K) (chunks : List (List BYTE)) (cur : List BYTE),
      Tracks md4 ctx chunks cur →
      (chunks.flatten ++ cur ++ pushes.flatten).length < 2 * 9728000 →
      ∃ chunks1 cur1, Tracks md4 (pushAll md4 ctx pushes) chunks1 cur1 ∧
        chunks1.flatten ++ cur1 = chunks.flatten ++ cur ++ pushes.flatten := by
  induction pushes with
  | nil =>
    intro ctx chunks cur h _
    exact ⟨chunks, cur, h, by simp⟩
  | cons p ps ih =>
    intro ctx chunks cur h htot
    simp only [List.flatten_cons, List.length_append] at htot
    obtain ⟨chunks1, cur1, h1, e1⟩ := h.push hlen p (by omega)
    have htot1 : (chunks1.flatten ++ cur1 ++ ps.flatten).length < 2 * 9728000 := by
      rw [e1]
      simp only [List.length_append]
      omega
    obtain ⟨chunks2, cur2, h2, e2⟩ := ih _ chunks1 cur1 h1 htot1
    refine ⟨chunks2, cur2, h2, ?_⟩
    rw [e2, e1]
    simp

/-- A stream shorter than two chunks, split into pushes in any way, gets the
reference two-level hash as its visible digest. -/
theorem runED2K_eq_ref_of_lt_two {md4 : List BYTE → List BYTE}
    (hlen : ∀ x, (md4 x).length = 16) (ctx0 : WHCTXED2K) (pushes : List (List BYTE))
    (htot : pushes.flatten.length < 2 * 9728000) :
    visibleDigest (runED2K md4 ctx0 pushes) = some (refED2K md4 pushes.flatten) := by
  obtain ⟨chunks, cur, h, e⟩ :=
    Tracks.pushAll_lt_two hlen pushes (WHInitED2K ctx0) [] [] (Tracks.init md4 ctx0)
      (by simpa using htot)
  rw [runED2K, h.finish_eq_ref hlen, e]
  simp

/-- Pushes that together stay below the remaining room of the current chunk
only extend what the chunk engine has absorbed. -/
theorem pushAll_short (md4 : List BYTE → List BYTE) (pushes : List (List BYTE)) :
    ∀ ctx : WHCTXED2K, ctx.cbChunkRemaining < 2 ^ 32 →
      pushes.flatten.length < ctx.cbChunkRemaining →
      pushAll md4 ctx pushes =
        { ctx with
          ctxChunk := { ctx.ctxChunk with absorbed := ctx.ctxChunk.absorbed ++ pushes.flatten }
          cbChunkRemaining := ctx.cbChunkRemaining - pushes.flatten.length } := by
  induction pushes with
  | nil =>
    intro ctx _ _
    simp [pushAll]
  | cons p ps ih =>
    intro ctx h32 hlt
    simp only [List.flatten_cons, List.length_append] at hlt
    have hstep := WHUpdateED2K_of_lt md4 ctx p (by omega)
    rw [subUINT_of_le h32 (by omega)] at hstep
    have hfold : pushAll md4 ctx (p :: ps) = pushAll md4 (WHUpdateED2K md4 ctx p) ps := rfl
    rw [hfold, hstep, ih _ (by simp only; omega) (by simp only; omega)]
    simp only [List.flatten_cons, List.length_append, List.append_assoc, Nat.sub_sub]

theorem WHUpdateED2K_result_list (md4 : List BYTE → List BYTE) (ctx : WHCTXED2K)
    (pbIn : List BYTE) (h : ctx.result = ResultPtr.ctxListResult) :
    (WHUpdateED2K md4 ctx pbIn).result = ResultPtr.ctxListResult := by
  by_cases hb : pbIn.length < ctx.cbChunkRemaining
  · rw [WHUpdateED2K_of_lt md4 ctx pbIn hb]
    exact h
  · rw [WHUpdateED2K_of_ge md4 ctx pbIn (by omega)]

theorem pushAll_result_list (md4 : List BYTE → List BYTE) (pushes : List (List BYTE)) :
    ∀ ctx : WHCTXED2K, ctx.result = ResultPtr.ctxListResult →
      (pushAll md4 ctx pushes).result = ResultPtr.ctxListResult := by
  induction pushes with
  | nil =>
    intro ctx h
    exact h
  | cons p ps ih =>
    intro ctx h
    exact ih _ (WHUpdateED2K_result_list md4 ctx p h)

theorem foldl_WHUpdateCRC32_state (crc32 : Nat → List BYTE → Nat)
    (pushes : List (List BYTE)) :
    ∀ ctx : WHCTXCRC32,
      (pushes.foldl (WHUpdateCRC32 crc32) ctx).state = pushes.foldl crc32 ctx.state := by
  induction pushes with
  | nil =>
    intro ctx
    rfl
  | cons p ps ih =>
    intro ctx
    simp only [List.foldl_cons]
    rw [ih]
    rfl

theorem foldl_incremental (crc32 : Nat → List BYTE → Nat)
    (hinc : ∀ c a b, crc32 (crc32 c a) b = crc32 c (a ++ b))
    (hnil : ∀ c, crc32 c [] = c) (pushes : List (List BYTE)) :
    ∀ c : Nat, pushes.foldl crc32 c = crc32 c pushes.flatten := by
  induction pushes with
  | nil =>
    intro c
    simp [hnil]
  | cons p ps ih =>
    intro c
    simp only [List.foldl_cons, List.flatten_cons]
    rw [ih, hinc]

theorem bytes_of_sum (b0 b1 b2 b3 : Nat) (h0 : b0 < 256) (h1 : b1 < 256) (h2 : b2 < 256)
    (h3 : b3 < 256) :
    (b0 * 16777216 + b1 * 65536 + b2 * 256 + b3) / 1 % 256 = b3 ∧
    (b0 * 16777216 + b1 * 65536 + b2 * 256 + b3) / 256 % 256 = b2 ∧
    (b0 * 16777216 + b1 * 65536 + b2 * 256 + b3) / 65536 % 256 = b1 ∧
    (b0 * 16777216 + b1 * 65536 + b2 * 256 + b3) / 16777216 % 256 = b0 := by
  refine ⟨?_, ?_, ?_, ?_⟩ <;> omega

/-- On a little-endian layout the bytes of `SwapV32 v` are the bytes of the
32-bit value `v`, most significant first. -/
theorem SwapV32_bytes (v : Nat) :
    SwapV32 v / 2 ^ (8 * 0) % 256 = (v >>> (8 * (3 - 0))) &&& 0xFF ∧
    SwapV32 v / 2 ^ (8 * 1) % 256 = (v >>> (8 * (3 - 1))) &&& 0xFF ∧
    SwapV32 v / 2 ^ (8 * 2) % 256 = (v >>> (8 * (3 - 2))) &&& 0xFF ∧
    SwapV32 v / 2 ^ (8 * 3) % 256 = (v >>> (8 * (3 - 3))) &&& 0xFF := by
  have hand : ∀ x : Nat, x &&& 0xFF = x % 256 := fun x => Nat.and_pow_two_sub_one_eq_mod x 8
  have hb := bytes_of_sum (v % 256) (v / 256 % 256) (v / 65536 % 256) (v / 16777216 % 256)
    (Nat.mod_lt _ (by decide)) (Nat.mod_lt _ (by decide)) (Nat.mod_lt _ (by decide))
    (Nat.mod_lt _ (by decide))
  simp only [hand, Nat.shiftRight_eq_div_pow, SwapV32, Nat.reduceMul, Nat.reduceSub,
    Nat.reducePow, Nat.div_one]
  simp only [Nat.div_one] at hb
  exact ⟨hb.1, hb.2.1, hb.2.2.1, hb.2.2.2⟩

theorem crc32IEEE_incremental (c : Nat) (a b : List BYTE) :
    crc32IEEE (crc32IEEE c a) b = crc32IEEE c (a ++ b) := by
  simp only [crc32IEEE, List.foldl_append]
  rw [Nat.xor_assoc (List.foldl crcByte (c ^^^ 0xFFFFFFFF) a), Nat.xor_self, Nat.xor_zero]

theorem crc32IEEE_nil (c : Nat) : crc32IEEE c [] = c := by
  simp only [crc32IEEE, List.foldl_nil]
  rw [Nat.xor_assoc, Nat.xor_self, Nat.xor_zero]

/-- Pushes of at most one chunk each keep the context in step with the
stream. -/
theorem Tracks.pushAll_le_chunk {md4 : List BYTE → List BYTE}
    (hlen : ∀ x, (md4 x).length = 16) (pushes : List (List BYTE)) :
    ∀ (ctx : WHCTXED2K) (chunks : List (List BYTE)) (cur : List BYTE),
      Tracks md4 ctx chunks cur →
      (∀ p ∈ pushes, p.length ≤ 9728000) →
      ∃ chunks1 cur1, Tracks md4 (pushAll md4 ctx pushes) chunks1 cur1 ∧
        chunks1.flatten ++ cur1 = chunks.flatten ++ cur ++ pushes.flatten := by
  induction pushes with
  | nil =>
    intro ctx chunks cur h _
    exact ⟨chunks, cur, h, by simp⟩
  | cons p ps ih =>
    intro ctx chunks cur h hle
    have hp : p.length ≤ 9728000 := hle p (List.mem_cons_self p ps)
    have hcur := h.cur_lt
    obtain ⟨chunks1, cur1, h1, e1⟩ := h.push hlen p (by omega)
    obtain ⟨chunks2, cur2, h2, e2⟩ :=
      ih _ chunks1 cur1 h1 (fun q hq => hle q (List.mem_cons_of_mem p hq))
    refine ⟨chunks2, cur2, h2, ?_⟩
    rw [e2, e1]
    simp

/-- A stream split into pushes of at most one chunk each gets the reference
two-level hash as its visible digest. -/
theorem runED2K_eq_ref_of_le_chunk {md4 : List BYTE → List BYTE}
    (hlen : ∀ x, (md4 x).length = 16) (ctx0 : WHCTXED2K) (pushes : List (List BYTE))
    (hle : ∀ p ∈ pushes, p.length ≤ 9728000) :
    visibleDigest (runED2K md4 ctx0 pushes) = some (refED2K md4 pushes.flatten) := by
  obtain ⟨chunks, cur, h, e⟩ :=
    Tracks.pushAll_le_chunk hlen pushes (WHInitED2K ctx0) [] [] (Tracks.init md4 ctx0) hle
  rw [runED2K, h.finish_eq_ref hlen, e]
  simp

/-- The context after `WHInitED2K` and one push of at least one chunk: a single
rollover, with everything after the first chunk in the chunk engine. -/
theorem pushAll_init_single_ge (md4 : List BYTE → List BYTE) (ctx0 : WHCTXED2K)
    (p : List BYTE) (hp : 9728000 ≤ p.length) :
    pushAll md4 (WHInitED2K ctx0) [p] =
      { ctxList :=
          { absorbed := (md4 (p.take 9728000)).take 16
            result := ctx0.ctxList.result }
        ctxChunk :=
          { absorbed := p.drop 9728000
            result := md4 (p.take 9728000) }
        result := ResultPtr.ctxListResult
        cbChunkRemaining := subUINT 9728000 (p.length - 9728000) } := by
  have h0 : (WHInitED2K ctx0).cbChunkRemaining = 9728000 := by
    simp [WHInitED2K, chunkSize_eq]
  have hfold : pushAll md4 (WHInitED2K ctx0) [p] = WHUpdateED2K md4 (WHInitED2K ctx0) p := rfl
  rw [hfold, WHUpdateED2K_of_ge md4 _ p (by rw [h0]; exact hp), h0]
  simp [WHInitED2K, MD4Init]

/-- The visible digest after one push of at least one chunk and
`WHFinishED2K`. -/
theorem runED2K_single_ge (md4 : List BYTE → List BYTE) (ctx0 : WHCTXED2K)
    (p : List BYTE) (hp : 9728000 ≤ p.length) :
    visibleDigest (runED2K md4 ctx0 [p]) =
      some (md4 ((md4 (p.take 9728000)).take 16 ++ (md4 (p.drop 9728000)).take 16)) := by
  rw [runED2K, pushAll_init_single_ge md4 ctx0 p hp]
  simp [visibleDigest, WHFinishED2K, MD4Final, MD4Update, MD4_DIGEST_LENGTH]

/-- The reference two-level hash of a stream of exactly two chunks has three
chunk digests, the last one of the empty chunk. -/
theorem refED2K_two_chunks (md4 : List BYTE → List BYTE) (p : List BYTE)
    (hp : p.length = 2 * 9728000) :
    refED2K md4 p =
      md4 (md4 (p.take 9728000) ++ md4 (p.drop 9728000) ++ md4 []) := by
  have hdiv : p.length / 9728000 = 2 := by omega
  have hge : ¬ p.length < 9728000 := by omega
  have htake : List.take 9728000 (List.drop 9728000 p) = List.drop 9728000 p :=
    List.take_of_length_le (by rw [List.length_drop]; omega)
  have hdrop : List.drop 9728000 (List.drop 9728000 p) = [] :=
    List.drop_eq_nil_of_le (by rw [List.length_drop]; omega)
  simp only [refED2K, ed2kChunks, hdiv, hge, chunksAux, htake, hdrop, if_false,
    List.map_cons, List.map_nil, List.flatten_cons, List.flatten_nil, List.append_nil,
    List.append_assoc]

theorem append_digest_ne {md4 : List BYTE → List BYTE}
    (hlen : ∀ x, (md4 x).length = 16) (l : List BYTE) (x : List BYTE) :
    l ≠ l ++ md4 x := by
  intro h
  have hl := congrArg List.length h
  rw [List.length_append, hlen x] at hl
  omega

theorem lengthDigest_ne_of_length {a b : List BYTE} (h : a.length % 256 ≠ b.length % 256) :
    lengthDigest a ≠ lengthDigest b := by
  intro he
  apply h
  have h0 := congrArg (fun l => List.headD l 0) he
  simpa [lengthDigest, List.replicate_succ] using h0

/-- The context after `WHInitED2K`, one push of exactly two chunks and one
empty push: the empty push takes the rollover branch. -/
theorem pushAll_init_two_chunks_then_empty (md4 : List BYTE → List BYTE)
    (ctx0 : WHCTXED2K) (p : List BYTE) (hp : p.length = 2 * 9728000) :
    (pushAll md4 (WHInitED2K ctx0) [p]).cbChunkRemaining = 0 ∧
      WHUpdateED2K md4 (pushAll md4 (WHInitED2K ctx0) [p]) [] =
        { ctxList :=
            { absorbed := (md4 (p.take 9728000)).take 16 ++ (md4 (p.drop 9728000)).take 16
              result := ctx0.ctxList.result }
          ctxChunk :=
            { absorbed := []
              result := md4 (p.drop 9728000) }
          result := ResultPtr.ctxListResult
          cbChunkRemaining := 9728000 } := by
  have hsub : subUINT 9728000 (p.length - 9728000) = 0 := by
    rw [hp]
    decide
  have hst := pushAll_init_single_ge md4 ctx0 p (by omega)
  rw [hsub] at hst
  refine ⟨by rw [hst], ?_⟩
  rw [WHUpdateED2K_of_ge md4 _ [] (by rw [hst]; exact Nat.le_refl _), hst]
  simp only [List.take_zero, List.append_nil, List.drop_nil, List.length_nil, Nat.sub_self,
    subUINT_zero (by decide : 9728000 < 2 ^ 32)]

/-! ## Claims -/

/-- C2: a stream `S` shorter than 9,728,000 bytes, split into pushes in any way
(no push and empty pushes included), leaves the result pointer on the chunk
context's digest, and that digest is `MD4(S)`; with no input it is the MD4 of
the empty byte sequence. -/
theorem short_stream_is_plain_md4 (md4 : List BYTE → List BYTE) (ctx0 : WHCTXED2K)
    (S : List BYTE) (pushes : List (List BYTE)) (hsplit : pushes.flatten = S)
    (hS : S.length < 9728000) :
    (runED2K md4 ctx0 pushes).result = ResultPtr.ctxChunkResult ∧
      (runED2K md4 ctx0 pushes).ctxChunk.result = md4 S ∧
      visibleDigest (runED2K md4 ctx0 pushes) = some (md4 S) ∧
      visibleDigest (runED2K md4 ctx0 []) = some (md4 []) := by
  subst hsplit
  have h0 : (WHInitED2K ctx0).cbChunkRemaining = 9728000 := by
    simp [WHInitED2K, chunkSize_eq]
  have hrun := pushAll_short md4 pushes (WHInitED2K ctx0) (by rw [h0]; decide)
    (by rw [h0]; exact hS)
  refine ⟨?_, ?_, ?_, ?_⟩
  · rw [runED2K, hrun]
    simp [WHFinishED2K, WHInitED2K]
  · rw [runED2K, hrun]
    simp [WHFinishED2K, WHInitED2K, MD4Final, MD4Init]
  · rw [runED2K, hrun]
    simp [WHFinishED2K, WHInitED2K, MD4Final, MD4Init, visibleDigest]
  · simp [runED2K, pushAll, WHFinishED2K, WHInitED2K, MD4Final, MD4Init, visibleDigest]

theorem short_stream_is_plain_md4_witness :
    [[1, 2], [], [3]].flatten = [1, 2, 3] ∧ [1, 2, 3].length < 9728000 ∧
      (runED2K lengthDigest staleCtx [[1, 2], [], [3]]).result = ResultPtr.ctxChunkResult ∧
      (runED2K lengthDigest staleCtx [[1, 2], [], [3]]).ctxChunk.result
        = lengthDigest [1, 2, 3] ∧
      visibleDigest (runED2K lengthDigest staleCtx [[1, 2], [], [3]])
        = some (lengthDigest [1, 2, 3]) ∧
      visibleDigest (runED2K lengthDigest staleCtx []) = some (lengthDigest []) :=
  ⟨by decide, by decide,
    short_stream_is_plain_md4 lengthDigest staleCtx [1, 2, 3] [[1, 2], [], [3]]
      (by decide) (by decide)⟩

/-- C3: a stream `S` of exactly 9,728,000 bytes, delivered as one push or split
into pushes in any way, gets the visible digest `MD4(MD4(S) ++ MD4(empty))`. -/
theorem exact_chunk_folds_empty_digest (md4 : List BYTE → List BYTE)
    (hlen : ∀ x, (md4 x).length = 16) (ctx0 : WHCTXED2K)
    (S : List BYTE) (pushes : List (List BYTE)) (hsplit : pushes.flatten = S)
    (hS : S.length = 9728000) :
    visibleDigest (runED2K md4 ctx0 pushes) = some (md4 (md4 S ++ md4 [])) := by
  rw [runED2K_eq_ref_of_lt_two hlen ctx0 pushes (by rw [hsplit]; omega), hsplit]
  have htake : List.take 9728000 S = S := List.take_of_length_le (by omega)
  have hdrop : List.drop 9728000 S = [] := List.drop_eq_nil_of_le (by omega)
  simp [refED2K, ed2kChunks, hS, chunksAux, htake, hdrop]

theorem exact_chunk_folds_empty_digest_witness :
    [zeroBytes 9727999, [], [0]].flatten = zeroBytes 9727999 ++ [0] ∧
      (zeroBytes 9727999 ++ [0]).length = 9728000 ∧
      visibleDigest (runED2K lengthDigest staleCtx [zeroBytes 9727999, [], [0]])
        = some (lengthDigest (lengthDigest (zeroBytes 9727999 ++ [0])
            ++ lengthDigest [])) :=
  have hsplit : [zeroBytes 9727999, [], [0]].flatten = zeroBytes 9727999 ++ [0] := by
    simp only [List.flatten_cons, List.flatten_nil, List.append_nil, List.nil_append]
  have hS : (zeroBytes 9727999 ++ [0]).length = 9728000 := by
    rw [List.length_append, zeroBytes_length, List.length_singleton]
  ⟨hsplit, hS,
    exact_chunk_folds_empty_digest lengthDigest lengthDigest_length staleCtx
      (zeroBytes 9727999 ++ [0]) [zeroBytes 9727999, [], [0]] hsplit hS⟩

/-- C4: for `0 < k < 9,728,000`, a stream `S` of `9,728,000 + k` bytes, delivered
as one push or split into pushes in any way, gets the visible digest
`MD4(MD4(S[0:9728000]) ++ MD4(S[9728000:]))`. -/
theorem one_chunk_and_tail (md4 : List BYTE → List BYTE)
    (hlen : ∀ x, (md4 x).length = 16) (ctx0 : WHCTXED2K) (k : Nat)
    (hk0 : 0 < k) (hk : k < 9728000)
    (S : List BYTE) (pushes : List (List BYTE)) (hsplit : pushes.flatten = S)
    (hS : S.length = 9728000 + k) :
    visibleDigest (runED2K md4 ctx0 pushes) =
      some (md4 (md4 (S.take 9728000) ++ md4 (S.drop 9728000))) := by
  rw [runED2K_eq_ref_of_lt_two hlen ctx0 pushes (by rw [hsplit]; omega), hsplit]
  have hdiv : S.length / 9728000 = 1 := by omega
  have hge : ¬ S.length < 9728000 := by omega
  simp [refED2K, ed2kChunks, hdiv, hge, chunksAux]

theorem one_chunk_and_tail_witness :
    0 < 2 ∧ 2 < 9728000 ∧
      [zeroBytes 9728001, [5]].flatten = zeroBytes 9728001 ++ [5] ∧
      (zeroBytes 9728001 ++ [5]).length = 9728000 + 2 ∧
      visibleDigest (runED2K lengthDigest staleCtx [zeroBytes 9728001, [5]])
        = some (lengthDigest
            (lengthDigest ((zeroBytes 9728001 ++ [5]).take 9728000)
              ++ lengthDigest ((zeroBytes 9728001 ++ [5]).drop 9728000))) :=
  have hsplit : [zeroBytes 9728001, [5]].flatten = zeroBytes 9728001 ++ [5] := by
    simp only [List.flatten_cons, List.flatten_nil, List.append_nil]
  have hS : (zeroBytes 9728001 ++ [5]).length = 9728000 + 2 := by
    rw [List.length_append, zeroBytes_length, List.length_singleton]
  ⟨by decide, by decide, hsplit, hS,
    one_chunk_and_tail lengthDigest lengthDigest_length staleCtx 2 (by decide) (by decide)
      (zeroBytes 9728001 ++ [5]) [zeroBytes 9728001, [5]] hsplit hS⟩

/-- C6: `WHInitED2K` sets the result pointer to the chunk context's digest, and
once the pointer designates the list context's digest it still does after any
`WHUpdateED2K`, after any sequence of them, and after `WHFinishED2K`. -/
theorem result_selector_never_switches_back (md4 : List BYTE → List BYTE)
    (ctx0 ctx : WHCTXED2K) (pushes : List (List BYTE))
    (h : ctx.result = ResultPtr.ctxListResult) :
    (WHInitED2K ctx0).result = ResultPtr.ctxChunkResult ∧
      (∀ pbIn, (WHUpdateED2K md4 ctx pbIn).result = ResultPtr.ctxListResult) ∧
      (WHFinishED2K md4 ctx).result = ResultPtr.ctxListResult ∧
      (pushAll md4 ctx pushes).result = ResultPtr.ctxListResult ∧
      (WHFinishED2K md4 (pushAll md4 ctx pushes)).result = ResultPtr.ctxListResult :=
  ⟨rfl, fun pbIn => WHUpdateED2K_result_list md4 ctx pbIn h, h,
    pushAll_result_list md4 pushes ctx h, pushAll_result_list md4 pushes ctx h⟩

theorem result_selector_never_switches_back_witness :
    ({ staleCtx with result := ResultPtr.ctxListResult } : WHCTXED2K).result
        = ResultPtr.ctxListResult ∧
      (pushAll lengthDigest { staleCtx with result := ResultPtr.ctxListResult }
        [[1], [], [2, 3, 4, 5, 6], [7]]).result = ResultPtr.ctxListResult :=
  ⟨rfl, (result_selector_never_switches_back lengthDigest staleCtx
    { staleCtx with result := ResultPtr.ctxListResult }
    [[1], [], [2, 3, 4, 5, 6], [7]] rfl).2.2.2.1⟩

/-- C7: whatever the context held before, `WHInitED2K` leaves both MD4 contexts
freshly initialised, the result pointer on the chunk digest and
`cbChunkRemaining = 9500 << 10 = 9500 * 1024 = 9,728,000`; at a rollover
`WHUpdateED2K` counts the residual bytes down from the same constant, so a push
that exactly completes the chunk leaves `cbChunkRemaining = 9,728,000`. -/
theorem init_state (md4 : List BYTE → List BYTE) (ctx0 ctx : WHCTXED2K)
    (pbIn : List BYTE) :
    (WHInitED2K ctx0).ctxList = MD4Init ctx0.ctxList ∧
      (WHInitED2K ctx0).ctxChunk = MD4Init ctx0.ctxChunk ∧
      (WHInitED2K ctx0).ctxList.absorbed = [] ∧
      (WHInitED2K ctx0).ctxChunk.absorbed = [] ∧
      (WHInitED2K ctx0).result = ResultPtr.ctxChunkResult ∧
      (WHInitED2K ctx0).cbChunkRemaining = 9500 <<< 10 ∧
      9500 <<< 10 = 9500 * 1024 ∧ 9500 * 1024 = 9728000 ∧
      (WHUpdateED2K md4 ctx pbIn).cbChunkRemaining =
        (if pbIn.length ≥ ctx.cbChunkRemaining
          then subUINT (WHInitED2K ctx0).cbChunkRemaining
            (pbIn.length - ctx.cbChunkRemaining)
          else subUINT ctx.cbChunkRemaining pbIn.length) ∧
      (WHUpdateED2K md4 ctx (zeroBytes ctx.cbChunkRemaining)).cbChunkRemaining
        = 9728000 := by
  refine ⟨rfl, rfl, rfl, rfl, rfl, rfl, by decide, by decide, ?_, ?_⟩
  · by_cases hb : pbIn.length < ctx.cbChunkRemaining
    · rw [WHUpdateED2K_of_lt md4 ctx pbIn hb, if_neg (by omega)]
    · rw [WHUpdateED2K_of_ge md4 ctx pbIn (by omega), if_pos (by omega)]
      simp [WHInitED2K, chunkSize_eq]
  · rw [WHUpdateED2K_of_ge md4 ctx _ (by rw [zeroBytes_length])]
    simp only [zeroBytes_length, Nat.sub_self]
    exact subUINT_zero (by decide)

/-- C8: after `WHInitCRC32`, `WHUpdateCRC32` per push and `WHFinishCRC32`, the
bytes `result[0..3]` (little-endian layout) are the accumulated CRC value `v`,
the accumulator folded from 0 over the pushes, most significant byte first:
`result[i] = (v >> (8*(3-i))) & 0xFF`. -/
theorem crc32_result_big_endian (crc32 : Nat → List BYTE → Nat) (ctx0 : WHCTXCRC32)
    (pushes : List (List BYTE)) :
    (WHInitCRC32 ctx0).state = 0 ∧
      (pushes.foldl (WHUpdateCRC32 crc32) (WHInitCRC32 ctx0)).state
        = pushes.foldl crc32 0 ∧
      (runCRC32 crc32 ctx0 pushes).resultByte 0
        = (pushes.foldl crc32 0 >>> (8 * (3 - 0))) &&& 0xFF ∧
      (runCRC32 crc32 ctx0 pushes).resultByte 1
        = (pushes.foldl crc32 0 >>> (8 * (3 - 1))) &&& 0xFF ∧
      (runCRC32 crc32 ctx0 pushes).resultByte 2
        = (pushes.foldl crc32 0 >>> (8 * (3 - 2))) &&& 0xFF ∧
      (runCRC32 crc32 ctx0 pushes).resultByte 3
        = (pushes.foldl crc32 0 >>> (8 * (3 - 3))) &&& 0xFF := by
  have hst := foldl_WHUpdateCRC32_state crc32 pushes (WHInitCRC32 ctx0)
  have h0 : (WHInitCRC32 ctx0).state = 0 := rfl
  rw [h0] at hst
  refine ⟨h0, hst, ?_⟩
  simp only [runCRC32, WHFinishCRC32, WHCTXCRC32.resultByte, hst]
  exact SwapV32_bytes _

/-- C9: with an incremental `crc32` primitive, a stream `S` delivered in any
in-order split gives the same context, hence the same four result bytes, as `S`
delivered in one `WHUpdateCRC32`. -/
theorem crc32_streaming_equivalence (crc32 : Nat → List BYTE → Nat)
    (hinc : ∀ c a b, crc32 (crc32 c a) b = crc32 c (a ++ b))
    (hnil : ∀ c, crc32 c [] = c) (ctx0 : WHCTXCRC32)
    (S : List BYTE) (pushes : List (List BYTE)) (hsplit : pushes.flatten = S) :
    runCRC32 crc32 ctx0 pushes = runCRC32 crc32 ctx0 [S] ∧
      ∀ i, (runCRC32 crc32 ctx0 pushes).resultByte i
        = (runCRC32 crc32 ctx0 [S]).resultByte i := by
  have hst := foldl_WHUpdateCRC32_state crc32 pushes (WHInitCRC32 ctx0)
  rw [foldl_incremental crc32 hinc hnil pushes, hsplit] at hst
  have heq : runCRC32 crc32 ctx0 pushes = runCRC32 crc32 ctx0 [S] := by
    simp only [runCRC32, WHFinishCRC32, hst, List.foldl_cons, List.foldl_nil, WHUpdateCRC32]
  exact ⟨heq, fun i => by rw [heq]⟩

theorem crc32_streaming_equivalence_witness :
    [[49, 50, 51], [], [52, 53, 54, 55], [56, 57]].flatten
        = [49, 50, 51, 52, 53, 54, 55, 56, 57] ∧
      runCRC32 crc32IEEE ⟨5⟩ [[49, 50, 51], [], [52, 53, 54, 55], [56, 57]]
        = runCRC32 crc32IEEE ⟨5⟩ [[49, 50, 51, 52, 53, 54, 55, 56, 57]] :=
  ⟨by decide, (crc32_streaming_equivalence crc32IEEE crc32IEEE_incremental crc32IEEE_nil ⟨5⟩
    [49, 50, 51, 52, 53, 54, 55, 56, 57] [[49, 50, 51], [], [52, 53, 54, 55], [56, 57]]
    (by decide)).1⟩

/-- C1, the code on a single push that spans two full chunks: `WHUpdateED2K`
rolls over once, so after `WHFinishED2K` the visible digest is the MD4 of two
chunk digests, whereas the two-level hash of the stream is the MD4 of three,
the last one the digest of the empty chunk; the two digest lists differ. -/
theorem single_push_of_two_chunks (md4 : List BYTE → List BYTE)
    (hlen : ∀ x, (md4 x).length = 16) (ctx0 : WHCTXED2K) (p : List BYTE)
    (hp : p.length = 2 * 9728000) :
    visibleDigest (runED2K md4 ctx0 [p])
        = some (md4 (md4 (p.take 9728000) ++ md4 (p.drop 9728000))) ∧
      refED2K md4 p
        = md4 (md4 (p.take 9728000) ++ md4 (p.drop 9728000) ++ md4 []) ∧
      md4 (p.take 9728000) ++ md4 (p.drop 9728000)
        ≠ md4 (p.take 9728000) ++ md4 (p.drop 9728000) ++ md4 [] := by
  refine ⟨?_, refED2K_two_chunks md4 p hp, append_digest_ne hlen _ _⟩
  rw [runED2K_single_ge md4 ctx0 p (by omega), take_digest hlen, take_digest hlen]

theorem single_push_of_two_chunks_witness :
    (zeroBytes 19456000).length = 2 * 9728000 ∧
      visibleDigest (runED2K lengthDigest staleCtx [zeroBytes 19456000])
        ≠ some (refED2K lengthDigest (zeroBytes 19456000)) := by
  have hp : (zeroBytes 19456000).length = 2 * 9728000 := zeroBytes_length 19456000
  obtain ⟨h1, h2, _⟩ :=
    single_push_of_two_chunks lengthDigest lengthDigest_length staleCtx (zeroBytes 19456000) hp
  refine ⟨hp, ?_⟩
  rw [h1, h2]
  intro h
  refine lengthDigest_ne_of_length ?_ (Option.some.inj h)
  simp only [List.length_append, lengthDigest_length]
  decide

/-- C5, the code on one stream of two full chunks delivered in two ways: as a
single push the visible digest is the MD4 of two chunk digests, as two pushes of
one chunk each it is the MD4 of three (the reference two-level hash). -/
theorem one_push_versus_two_pushes (md4 : List BYTE → List BYTE)
    (hlen : ∀ x, (md4 x).length = 16) (ctx0 : WHCTXED2K) (p : List BYTE)
    (hp : p.length = 2 * 9728000) :
    [p].flatten = [p.take 9728000, p.drop 9728000].flatten ∧
      visibleDigest (runED2K md4 ctx0 [p])
        = some (md4 (md4 (p.take 9728000) ++ md4 (p.drop 9728000))) ∧
      visibleDigest (runED2K md4 ctx0 [p.take 9728000, p.drop 9728000])
        = some (md4 (md4 (p.take 9728000) ++ md4 (p.drop 9728000) ++ md4 [])) := by
  have hflat : [p.take 9728000, p.drop 9728000].flatten = p := by
    simp only [List.flatten_cons, List.flatten_nil, List.append_nil, List.take_append_drop]
  refine ⟨?_, ?_, ?_⟩
  · rw [hflat]
    simp only [List.flatten_cons, List.flatten_nil, List.append_nil]
  · rw [runED2K_single_ge md4 ctx0 p (by omega), take_digest hlen, take_digest hlen]
  · have hle : ∀ q ∈ [p.take 9728000, p.drop 9728000], q.length ≤ 9728000 := by
      intro q hq
      simp only [List.mem_cons, List.mem_singleton, List.not_mem_nil, or_false] at hq
      rcases hq with hq | hq
      · rw [hq, List.length_take]
        omega
      · rw [hq, List.length_drop]
        omega
    rw [runED2K_eq_ref_of_le_chunk hlen ctx0 _ hle, hflat, refED2K_two_chunks md4 p hp]

theorem one_push_versus_two_pushes_witness :
    (zeroBytes 19456000).length = 2 * 9728000 ∧
      [zeroBytes 19456000].flatten
        = [(zeroBytes 19456000).take 9728000, (zeroBytes 19456000).drop 9728000].flatten ∧
      visibleDigest (runED2K lengthDigest staleCtx [zeroBytes 19456000])
        ≠ visibleDigest (runED2K lengthDigest staleCtx
            [(zeroBytes 19456000).take 9728000, (zeroBytes 19456000).drop 9728000]) := by
  have hp : (zeroBytes 19456000).length = 2 * 9728000 := zeroBytes_length 19456000
  obtain ⟨h0, h1, h2⟩ :=
    one_push_versus_two_pushes lengthDigest lengthDigest_length staleCtx (zeroBytes 19456000) hp
  refine ⟨hp, h0, ?_⟩
  rw [h1, h2]
  intro h
  refine lengthDigest_ne_of_length ?_ (Option.some.inj h)
  simp only [List.length_append, lengthDigest_length]
  decide

/-- C10, the code on an empty push after a single push of two full chunks: the
first push leaves `cbChunkRemaining = 0`, so the empty push takes the rollover
branch; it feeds a chunk digest to the list engine, resets the chunk engine and
sets `cbChunkRemaining` to 9,728,000, and the final visible digest differs from
the one obtained without the empty push by a third chunk digest. -/
theorem empty_push_after_two_chunk_push (md4 : List BYTE → List BYTE)
    (hlen : ∀ x, (md4 x).length = 16) (ctx0 : WHCTXED2K) (p : List BYTE)
    (hp : p.length = 2 * 9728000) :
    (pushAll md4 (WHInitED2K ctx0) [p]).cbChunkRemaining = 0 ∧
      (pushAll md4 (WHInitED2K ctx0) [p]).ctxList.absorbed = md4 (p.take 9728000) ∧
      (pushAll md4 (WHInitED2K ctx0) [p]).ctxChunk.absorbed = p.drop 9728000 ∧
      (WHUpdateED2K md4 (pushAll md4 (WHInitED2K ctx0) [p]) []).cbChunkRemaining
        = 9728000 ∧
      (WHUpdateED2K md4 (pushAll md4 (WHInitED2K ctx0) [p]) []).ctxList.absorbed
        = md4 (p.take 9728000) ++ md4 (p.drop 9728000) ∧
      (WHUpdateED2K md4 (pushAll md4 (WHInitED2K ctx0) [p]) []).ctxChunk.absorbed = [] ∧
      WHUpdateED2K md4 (pushAll md4 (WHInitED2K ctx0) [p]) []
        ≠ pushAll md4 (WHInitED2K ctx0) [p] ∧
      visibleDigest (runED2K md4 ctx0 [p])
        = some (md4 (md4 (p.take 9728000) ++ md4 (p.drop 9728000))) ∧
      visibleDigest (runED2K md4 ctx0 [p, []])
        = some (md4 (md4 (p.take 9728000) ++ md4 (p.drop 9728000) ++ md4 [])) := by
  obtain ⟨hrem, hupd⟩ := pushAll_init_two_chunks_then_empty md4 ctx0 p hp
  have hst := pushAll_init_single_ge md4 ctx0 p (by omega)
  refine ⟨hrem, ?_, ?_, ?_, ?_, ?_, ?_, ?_, ?_⟩
  · rw [hst]
    exact take_digest hlen _
  · rw [hst]
  · rw [hupd]
  · rw [hupd]
    simp only [take_digest hlen]
  · rw [hupd]
  · intro h
    have h2 := congrArg WHCTXED2K.cbChunkRemaining h
    rw [hupd, hrem] at h2
    have h3 : (9728000 : Nat) = 0 := h2
    exact absurd h3 (by decide)
  · rw [runED2K_single_ge md4 ctx0 p (by omega), take_digest hlen, take_digest hlen]
  · have hfold : runED2K md4 ctx0 [p, []]
        = WHFinishED2K md4 (WHUpdateED2K md4 (pushAll md4 (WHInitED2K ctx0) [p]) []) := rfl
    rw [hfold, hupd]
    simp [visibleDigest, WHFinishED2K, MD4Final, MD4Update, MD4_DIGEST_LENGTH,
      take_digest hlen]

theorem empty_push_after_two_chunk_push_witness :
    (zeroBytes 19456000).length = 2 * 9728000 ∧
      WHUpdateED2K lengthDigest (pushAll lengthDigest (WHInitED2K staleCtx)
          [zeroBytes 19456000]) []
        ≠ pushAll lengthDigest (WHInitED2K staleCtx) [zeroBytes 19456000] ∧
      visibleDigest (runED2K lengthDigest staleCtx [zeroBytes 19456000, []])
        ≠ visibleDigest (runED2K lengthDigest staleCtx [zeroBytes 19456000]) := by
  have hp : (zeroBytes 19456000).length = 2 * 9728000 := zeroBytes_length 19456000
  obtain ⟨_, _, _, _, _, _, hne, h1, h2⟩ :=
    empty_push_after_two_chunk_push lengthDigest lengthDigest_length staleCtx
      (zeroBytes 19456000) hp
  refine ⟨hp, hne, ?_⟩
  rw [h1, h2]
  intro h
  refine lengthDigest_ne_of_length ?_ (Option.some.inj h)
  simp only [List.length_append, lengthDigest_length]
  decide

/-! ## Hex codec, buffer sizes and single steps of the ED2K hasher -/

theorem hexValue_hexDigit (uCaseMode nibble : Nat) (h : nibble < 16) :
    hexValue (hexDigit uCaseMode nibble) = some nibble := by
  have hdigit : ∀ c, 48 ≤ c ∧ c ≤ 57 → hexValue c = some (c - 48) := by
    intro c hc
    unfold hexValue
    exact if_pos hc
  have hupper : ∀ c, 65 ≤ c ∧ c ≤ 70 → hexValue c = some (c - 65 + 10) := by
    intro c hc
    unfold hexValue
    rw [if_neg (fun hd => by omega), if_pos hc]
  have hlower : ∀ c, 97 ≤ c ∧ c ≤ 102 → hexValue c = some (c - 97 + 10) := by
    intro c hc
    unfold hexValue
    rw [if_neg (fun hd => by omega), if_neg (fun hd => by omega), if_pos hc]
  unfold hexDigit
  by_cases h10 : nibble < 10
  · rw [if_pos h10, hdigit _ (by omega)]
    congr 1
    omega
  · rw [if_neg h10]
    by_cases hm : uCaseMode = WHFMT_LOWERCASE
    · rw [if_pos hm, hlower _ (by omega)]
      congr 1
      omega
    · rw [if_neg hm, hupper _ (by omega)]
      congr 1
      omega

theorem WHByteToHex_length (B : List BYTE) (uCaseMode : Nat) :
    (WHByteToHex B uCaseMode).length = 2 * B.length := by
  induction B with
  | nil => rfl
  | cons b bs ih =>
    have hl : (WHByteToHex (b :: bs) uCaseMode).length
        = (WHByteToHex bs uCaseMode).length + 2 := rfl
    rw [hl, ih, List.length_cons]
    omega

theorem byte_of_nibbles (b : Nat) (hb : b < 256) : b / 16 % 16 * 16 + b % 16 = b := by
  omega

theorem WHHexToByte_WHByteToHex (uCaseMode : Nat) (B : List BYTE)
    (hB : ∀ b ∈ B, b < 256) :
    WHHexToByte (WHByteToHex B uCaseMode) B.length = some B := by
  induction B with
  | nil => rfl
  | cons b bs ih =>
    have hb : b < 256 := hB b (List.mem_cons_self b bs)
    have hbs := ih (fun c hc => hB c (List.mem_cons_of_mem b hc))
    have hval : b / 16 % 16 * 16 + b % 16 = b := byte_of_nibbles b hb
    simp only [WHByteToHex, List.length_cons, WHHexToByte,
      hexValue_hexDigit uCaseMode (b / 16 % 16) (Nat.mod_lt _ (by decide)),
      hexValue_hexDigit uCaseMode (b % 16) (Nat.mod_lt _ (by decide)), hbs, hval]

/-- The result pointer after a sequence of pushes that starts before the first
chunk boundary, `t` bytes into the first chunk. -/
theorem pushAll_result_of_chunk (md4 : List BYTE → List BYTE)
    (pushes : List (List BYTE)) :
    ∀ (ctx : WHCTXED2K) (t : Nat), ctx.result = ResultPtr.ctxChunkResult →
      t < 9728000 → ctx.cbChunkRemaining = 9728000 - t →
      (pushAll md4 ctx pushes).result =
        if t + pushes.flatten.length ≥ 9728000 then ResultPtr.ctxListResult
        else ResultPtr.ctxChunkResult := by
  induction pushes with
  | nil =>
    intro ctx t hres ht _
    have hlt : ¬ t + ([] : List (List BYTE)).flatten.length ≥ 9728000 := by
      simp only [List.flatten_nil, List.length_nil]
      omega
    rw [if_neg hlt]
    exact hres
  | cons p ps ih =>
    intro ctx t hres ht hrem
    have hfold : pushAll md4 ctx (p :: ps) = pushAll md4 (WHUpdateED2K md4 ctx p) ps := rfl
    rw [hfold]
    simp only [List.flatten_cons, List.length_append]
    by_cases hb : p.length < ctx.cbChunkRemaining
    · have hstep := WHUpdateED2K_of_lt md4 ctx p hb
      rw [subUINT_of_le (by omega) (by omega)] at hstep
      rw [ih (WHUpdateED2K md4 ctx p) (t + p.length) (by rw [hstep]; exact hres) (by omega)
        (by rw [hstep]; simp only; omega), Nat.add_assoc]
    · have hres1 : (WHUpdateED2K md4 ctx p).result = ResultPtr.ctxListResult := by
        rw [WHUpdateED2K_of_ge md4 ctx p (by omega)]
      rw [pushAll_result_list md4 ps _ hres1, if_pos (by omega)]

/-- C11: for every byte sequence `B` and either case mode, `WHHexToByte` applied
to the text that `WHByteToHex` made from `B` succeeds and returns `B`; that text
has two characters per byte. -/
theorem hex_round_trip (B : List BYTE) (hB : ∀ b ∈ B, b < 256) :
    WHHexToByte (WHByteToHex B WHFMT_UPPERCASE) B.length = some B ∧
      WHHexToByte (WHByteToHex B WHFMT_LOWERCASE) B.length = some B ∧
      (WHByteToHex B WHFMT_UPPERCASE).length = 2 * B.length ∧
      (WHByteToHex B WHFMT_LOWERCASE).length = 2 * B.length :=
  ⟨WHHexToByte_WHByteToHex WHFMT_UPPERCASE B hB, WHHexToByte_WHByteToHex WHFMT_LOWERCASE B hB,
    WHByteToHex_length B WHFMT_UPPERCASE, WHByteToHex_length B WHFMT_LOWERCASE⟩

theorem hex_round_trip_witness :
    (∀ b ∈ [0, 171, 255], b < 256) ∧
      WHByteToHex [0, 171, 255] WHFMT_UPPERCASE = [48, 48, 65, 66, 70, 70] ∧
      WHByteToHex [0, 171, 255] WHFMT_LOWERCASE = [48, 48, 97, 98, 102, 102] ∧
      WHHexToByte [48, 48, 65, 66, 70, 70] 3 = some [0, 171, 255] ∧
      WHHexToByte [48, 48, 97, 98, 102, 102] 3 = some [0, 171, 255] :=
  ⟨by decide, by decide, by decide,
    (hex_round_trip [0, 171, 255] (by decide)).1,
    (hex_round_trip [0, 171, 255] (by decide)).2.1⟩

/-- C12: the `WHRESULTEX` fields hold 9, 33, 33, 41, 65 and 129 characters, each
twice the digest byte length (4, 16, 16, 20, 32, 64) plus one, and the five
fields other than CRC32 have the size of the `*_DIGEST_STRING_LENGTH`
constant. -/
theorem hex_buffer_capacities :
    WHRESULTEX_sizes
        = { szHexCRC32 := 9, szHexMD4 := 33, szHexMD5 := 33, szHexSHA1 := 41,
            szHexSHA256 := 65, szHexSHA512 := 129 } ∧
      (CRC32_RESULT_SIZE = 4 ∧ MD4_DIGEST_LENGTH = 16 ∧ MD5_DIGEST_LENGTH = 16 ∧
        SHA1_DIGEST_LENGTH = 20 ∧ SHA256_DIGEST_LENGTH = 32 ∧ SHA512_DIGEST_LENGTH = 64) ∧
      (WHRESULTEX_sizes.szHexCRC32 = 2 * CRC32_RESULT_SIZE + 1 ∧
        WHRESULTEX_sizes.szHexMD4 = 2 * MD4_DIGEST_LENGTH + 1 ∧
        WHRESULTEX_sizes.szHexMD5 = 2 * MD5_DIGEST_LENGTH + 1 ∧
        WHRESULTEX_sizes.szHexSHA1 = 2 * SHA1_DIGEST_LENGTH + 1 ∧
        WHRESULTEX_sizes.szHexSHA256 = 2 * SHA256_DIGEST_LENGTH + 1 ∧
        WHRESULTEX_sizes.szHexSHA512 = 2 * SHA512_DIGEST_LENGTH + 1) ∧
      (WHRESULTEX_sizes.szHexMD4 = MD4_DIGEST_STRING_LENGTH ∧
        WHRESULTEX_sizes.szHexMD5 = MD5_DIGEST_STRING_LENGTH ∧
        WHRESULTEX_sizes.szHexSHA1 = SHA1_DIGEST_STRING_LENGTH ∧
        WHRESULTEX_sizes.szHexSHA256 = SHA256_DIGEST_STRING_LENGTH ∧
        WHRESULTEX_sizes.szHexSHA512 = SHA512_DIGEST_STRING_LENGTH) := by
  refine ⟨rfl, ⟨rfl, rfl, rfl, rfl, rfl, rfl⟩, ⟨?_, ?_, ?_, ?_, ?_, ?_⟩, ⟨?_, ?_, ?_, ?_, ?_⟩⟩ <;>
    decide

/-- C14: a push shorter than `cbChunkRemaining` is fed whole to the chunk engine,
lowers `cbChunkRemaining` by exactly its length without wrap-around, and leaves
the list engine context and the result pointer as they were. -/
theorem short_push_step (md4 : List BYTE → List BYTE) (ctx : WHCTXED2K)
    (pbIn : List BYTE) (h32 : ctx.cbChunkRemaining < 2 ^ 32)
    (hlt : pbIn.length < ctx.cbChunkRemaining) :
    (WHUpdateED2K md4 ctx pbIn).ctxChunk.absorbed = ctx.ctxChunk.absorbed ++ pbIn ∧
      (WHUpdateED2K md4 ctx pbIn).cbChunkRemaining = ctx.cbChunkRemaining - pbIn.length ∧
      (WHUpdateED2K md4 ctx pbIn).cbChunkRemaining + pbIn.length = ctx.cbChunkRemaining ∧
      (WHUpdateED2K md4 ctx pbIn).ctxList = ctx.ctxList ∧
      (WHUpdateED2K md4 ctx pbIn).result = ctx.result ∧
      (WHUpdateED2K md4 ctx pbIn).ctxChunk.result = ctx.ctxChunk.result := by
  have hstep := WHUpdateED2K_of_lt md4 ctx pbIn hlt
  rw [subUINT_of_le h32 (by omega)] at hstep
  rw [hstep]
  refine ⟨rfl, rfl, ?_, rfl, rfl, rfl⟩
  simp only
  omega

theorem short_push_step_witness :
    (5 : Nat) < 2 ^ 32 ∧ [10, 20, 30].length < staleCtx.cbChunkRemaining ∧
      (WHUpdateED2K lengthDigest staleCtx [10, 20, 30]).ctxChunk.absorbed
        = [8, 9, 10, 20, 30] ∧
      (WHUpdateED2K lengthDigest staleCtx [10, 20, 30]).cbChunkRemaining = 2 ∧
      (WHUpdateED2K lengthDigest staleCtx [10, 20, 30]).ctxList = staleCtx.ctxList ∧
      (WHUpdateED2K lengthDigest staleCtx [10, 20, 30]).result = staleCtx.result :=
  have h := short_push_step lengthDigest staleCtx [10, 20, 30] (by decide) (by decide)
  ⟨by decide, by decide, h.1, h.2.1, h.2.2.2.1, h.2.2.2.2.1⟩

/-- C15: after `WHInitED2K` and any sequence of pushes (oversized and empty ones
included) the result pointer designates the list context's digest if the total
number of bytes pushed is at least 9,728,000 and the chunk context's digest
otherwise. -/
theorem result_selector_iff_boundary_reached (md4 : List BYTE → List BYTE)
    (ctx0 : WHCTXED2K) (pushes : List (List BYTE)) :
    (pushAll md4 (WHInitED2K ctx0) pushes).result =
        (if pushes.flatten.length ≥ 9728000 then ResultPtr.ctxListResult
          else ResultPtr.ctxChunkResult) ∧
      ((pushAll md4 (WHInitED2K ctx0) pushes).result = ResultPtr.ctxListResult ↔
        9728000 ≤ pushes.flatten.length) := by
  have h := pushAll_result_of_chunk md4 pushes (WHInitED2K ctx0) 0 rfl (by decide)
    (by simp [WHInitED2K, chunkSize_eq])
  rw [Nat.zero_add] at h
  refine ⟨h, ?_⟩
  rw [h]
  by_cases hge : pushes.flatten.length ≥ 9728000
  · rw [if_pos hge]
    exact ⟨fun _ => hge, fun _ => rfl⟩
  · rw [if_neg hge]
    constructor
    · intro hc
      cases hc
    · intro hc
      exact absurd hc hge

/-! ## Byte counters under bounded pushes -/

theorem finalSubOperands_spec (md4 : List BYTE → List BYTE) (ctx : WHCTXED2K)
    (p : List BYTE) :
    (WHUpdateED2K md4 ctx p).cbChunkRemaining
      = subUINT (finalSubOperands ctx p).1 (finalSubOperands ctx p).2 := by
  unfold finalSubOperands
  by_cases hb : p.length < ctx.cbChunkRemaining
  · rw [WHUpdateED2K_of_lt md4 ctx p hb, if_neg (by omega)]
  · rw [WHUpdateED2K_of_ge md4 ctx p (by omega), if_pos (by omega), chunkSize_eq]

theorem Counts.after_init (ctx0 : WHCTXED2K) : Counts (WHInitED2K ctx0) 0 := by
  constructor <;> simp [WHInitED2K, MD4Init, chunkSize_eq]

/-- One push that ends before the end of the chunk after the current one keeps
the counters right, and its final subtraction does not wrap. -/
theorem Counts.step (md4 : List BYTE → List BYTE) {ctx : WHCTXED2K} {t : Nat}
    (h : Counts ctx t) (p : List BYTE)
    (hp : p.length < ctx.cbChunkRemaining + 9728000) :
    Counts (WHUpdateED2K md4 ctx p) (t + p.length) ∧
      (finalSubOperands ctx p).2 ≤ (finalSubOperands ctx p).1 ∧
      (WHUpdateED2K md4 ctx p).cbChunkRemaining
        = (finalSubOperands ctx p).1 - (finalSubOperands ctx p).2 := by
  have hrem := h.remaining
  have habs := h.absorbed
  have hmod : t % 9728000 < 9728000 := Nat.mod_lt _ (by decide)
  by_cases hb : p.length < ctx.cbChunkRemaining
  · have hops : finalSubOperands ctx p = (ctx.cbChunkRemaining, p.length) := by
      unfold finalSubOperands
      rw [if_neg (by omega)]
    have hstep := WHUpdateED2K_of_lt md4 ctx p hb
    rw [subUINT_of_le (by omega) (by omega)] at hstep
    rw [hops, hstep]
    refine ⟨⟨?_, ?_⟩, ?_, rfl⟩
    · simp only
      omega
    · simp only [List.length_append]
      omega
    · simp only
      omega
  · have hops : finalSubOperands ctx p = (9728000, p.length - ctx.cbChunkRemaining) := by
      unfold finalSubOperands
      rw [if_pos (by omega), chunkSize_eq]
    have hstep := WHUpdateED2K_of_ge md4 ctx p (by omega)
    rw [subUINT_of_le (by decide) (by omega)] at hstep
    rw [hops, hstep]
    refine ⟨⟨?_, ?_⟩, ?_, rfl⟩
    · simp only
      omega
    · simp only [List.length_drop]
      omega
    · simp only
      omega

theorem Counts.pushAll_admissible (md4 : List BYTE → List BYTE) (pushes : List (List BYTE)) :
    ∀ (ctx : WHCTXED2K) (t : Nat), Counts ctx t → admissible md4 ctx pushes = true →
      Counts (pushAll md4 ctx pushes) (t + pushes.flatten.length) := by
  induction pushes with
  | nil =>
    intro ctx t h _
    exact h
  | cons p ps ih =>
    intro ctx t h hadm
    simp only [admissible, Bool.and_eq_true, decide_eq_true_eq] at hadm
    have h1 := (h.step md4 p hadm.1).1
    have h2 := ih _ _ h1 hadm.2
    have hfold : pushAll md4 ctx (p :: ps) = pushAll md4 (WHUpdateED2K md4 ctx p) ps := rfl
    rw [hfold, List.flatten_cons, List.length_append, ← Nat.add_assoc]
    exact h2

theorem admissible_of_le_chunk (md4 : List BYTE → List BYTE) (pushes : List (List BYTE)) :
    ∀ (ctx : WHCTXED2K) (t : Nat), Counts ctx t → (∀ p ∈ pushes, p.length ≤ 9728000) →
      admissible md4 ctx pushes = true := by
  induction pushes with
  | nil =>
    intro ctx t _ _
    rfl
  | cons p ps ih =>
    intro ctx t h hle
    have hp : p.length ≤ 9728000 := hle p (List.mem_cons_self p ps)
    have hrem := h.remaining
    have hmod : t % 9728000 < 9728000 := Nat.mod_lt _ (by decide)
    have hadm : p.length < ctx.cbChunkRemaining + 9728000 := by omega
    simp only [admissible, Bool.and_eq_true, decide_eq_true_eq]
    exact ⟨hadm, ih _ _ (h.step md4 p hadm).1 (fun q hq => hle q (List.mem_cons_of_mem p hq))⟩

theorem admissible_take (md4 : List BYTE → List BYTE) (pushes : List (List BYTE)) :
    ∀ (ctx : WHCTXED2K) (k : Nat), admissible md4 ctx pushes = true →
      admissible md4 ctx (pushes.take k) = true := by
  induction pushes with
  | nil =>
    intro ctx k _
    simp [admissible]
  | cons p ps ih =>
    intro ctx k hadm
    cases k with
    | zero => rfl
    | succ k =>
      simp only [admissible, Bool.and_eq_true, decide_eq_true_eq] at hadm
      simp only [List.take_succ_cons, admissible, Bool.and_eq_true, decide_eq_true_eq]
      exact ⟨hadm.1, ih _ k hadm.2⟩

theorem admissible_get (md4 : List BYTE → List BYTE) (pushes : List (List BYTE)) :
    ∀ (ctx : WHCTXED2K) (k : Nat) (p : List BYTE), admissible md4 ctx pushes = true →
      pushes[k]? = some p →
      p.length < (pushAll md4 ctx (pushes.take k)).cbChunkRemaining + 9728000 := by
  induction pushes with
  | nil =>
    intro ctx k p _ hget
    simp at hget
  | cons q qs ih =>
    intro ctx k p hadm hget
    simp only [admissible, Bool.and_eq_true, decide_eq_true_eq] at hadm
    cases k with
    | zero =>
      simp only [List.getElem?_cons_zero, Option.some.injEq] at hget
      rw [← hget]
      exact hadm.1
    | succ k =>
      simp only [List.getElem?_cons_succ] at hget
      exact ih _ k p hadm.2 hget

theorem chunksAux_flatten_eq (C : Nat) (n : Nat) :
    ∀ S : List BYTE, (chunksAux C n S).flatten = S := by
  induction n with
  | zero =>
    intro S
    simp [chunksAux]
  | succ n ih =>
    intro S
    simp only [chunksAux, List.flatten_cons, ih, List.take_append_drop]

theorem chunksAux_lengths (n : Nat) :
    ∀ S : List BYTE, n * 9728000 ≤ S.length →
      (chunksAux 9728000 n S).map List.length
        = List.replicate n 9728000 ++ [S.length - n * 9728000] := by
  induction n with
  | zero =>
    intro S _
    simp [chunksAux]
  | succ n ih =>
    intro S hS
    have htake : (List.take 9728000 S).length = 9728000 := by
      rw [List.length_take]
      omega
    have hdrop : (List.drop 9728000 S).length = S.length - 9728000 := List.length_drop _ _
    have ih1 := ih (List.drop 9728000 S) (by rw [hdrop]; omega)
    have hsub : S.length - 9728000 - n * 9728000 = S.length - (n + 1) * 9728000 := by omega
    rw [hdrop, hsub] at ih1
    simp only [chunksAux, List.map_cons, htake, ih1, List.replicate_succ, List.cons_append]

/-- The chunk decomposition of the specification: the chunks concatenate to the
stream, all but the last have 9,728,000 bytes and the last has the remainder. -/
theorem ed2kChunks_shape (S : List BYTE) :
    (ed2kChunks S).flatten = S ∧
      (ed2kChunks S).map List.length
        = List.replicate (S.length / 9728000) 9728000 ++ [S.length % 9728000] := by
  refine ⟨chunksAux_flatten_eq _ _ S, ?_⟩
  have hle : S.length / 9728000 * 9728000 ≤ S.length := Nat.div_mul_le_self _ _
  have hmod : S.length - S.length / 9728000 * 9728000 = S.length % 9728000 := by omega
  rw [ed2kChunks, chunksAux_lengths _ S hle, hmod]

/-- C13: one `WHUpdateED2K` call feeds the list engine exactly one 16-byte chunk
digest when `cbIn >= cbChunkRemaining` and nothing otherwise; after the rollover
the reset chunk engine absorbs all `cbIn - cbChunkRemaining` residual bytes at
once, so with a residual above 9,728,000 the chunk engine holds more than one
chunk of bytes and `cbChunkRemaining = (9,728,000 - residual) mod 2^32` is above
the chunk size. -/
theorem single_rollover_per_call (md4 : List BYTE → List BYTE)
    (hlen : ∀ x, (md4 x).length = 16) (ctx : WHCTXED2K) (pbIn : List BYTE)
    (h32 : pbIn.length < 2 ^ 32) :
    (WHUpdateED2K md4 ctx pbIn).ctxList.absorbed =
        (if pbIn.length ≥ ctx.cbChunkRemaining
          then ctx.ctxList.absorbed ++
            md4 (ctx.ctxChunk.absorbed ++ pbIn.take ctx.cbChunkRemaining)
          else ctx.ctxList.absorbed) ∧
      (md4 (ctx.ctxChunk.absorbed ++ pbIn.take ctx.cbChunkRemaining)).length = 16 ∧
      (pbIn.length ≥ ctx.cbChunkRemaining →
        (WHUpdateED2K md4 ctx pbIn).ctxChunk.absorbed = pbIn.drop ctx.cbChunkRemaining ∧
        (WHUpdateED2K md4 ctx pbIn).ctxChunk.absorbed.length
          = pbIn.length - ctx.cbChunkRemaining ∧
        (WHUpdateED2K md4 ctx pbIn).cbChunkRemaining
          = subUINT 9728000 (pbIn.length - ctx.cbChunkRemaining)) ∧
      (pbIn.length ≥ ctx.cbChunkRemaining →
        9728000 < pbIn.length - ctx.cbChunkRemaining →
        9728000 < (WHUpdateED2K md4 ctx pbIn).ctxChunk.absorbed.length ∧
        ((WHUpdateED2K md4 ctx pbIn).cbChunkRemaining : Int)
          = ((9728000 : Int) - ((pbIn.length - ctx.cbChunkRemaining : Nat) : Int)) % 2 ^ 32 ∧
        (WHUpdateED2K md4 ctx pbIn).cbChunkRemaining
          = 9728000 + 2 ^ 32 - (pbIn.length - ctx.cbChunkRemaining) ∧
        9728000 < (WHUpdateED2K md4 ctx pbIn).cbChunkRemaining) := by
  refine ⟨?_, hlen _, ?_, ?_⟩
  · by_cases hb : pbIn.length < ctx.cbChunkRemaining
    · rw [WHUpdateED2K_of_lt md4 ctx pbIn hb, if_neg (by omega)]
    · rw [WHUpdateED2K_of_ge md4 ctx pbIn (by omega), if_pos (by omega)]
      simp only [take_digest hlen]
  · intro hge
    rw [WHUpdateED2K_of_ge md4 ctx pbIn hge]
    exact ⟨rfl, List.length_drop _ _, rfl⟩
  · intro hge hover
    rw [WHUpdateED2K_of_ge md4 ctx pbIn hge]
    have hsub : subUINT 9728000 (pbIn.length - ctx.cbChunkRemaining)
        = 9728000 + 2 ^ 32 - (pbIn.length - ctx.cbChunkRemaining) := by
      unfold subUINT
      omega
    simp only [List.length_drop, hsub]
    refine ⟨hover, ?_, trivial, ?_⟩
    · omega
    · omega

theorem single_rollover_per_call_witness :
    (zeroBytes 19456001).length < 2 ^ 32 ∧
      (WHUpdateED2K lengthDigest (WHInitED2K staleCtx) (zeroBytes 19456001)).cbChunkRemaining
        = 4294967295 ∧
      (WHUpdateED2K lengthDigest (WHInitED2K staleCtx)
        (zeroBytes 19456001)).ctxChunk.absorbed.length = 9728001 := by
  have h32 : (zeroBytes 19456001).length < 2 ^ 32 := by
    rw [zeroBytes_length]
    decide
  have hrem : (WHInitED2K staleCtx).cbChunkRemaining = 9728000 := by decide
  have h := single_rollover_per_call lengthDigest lengthDigest_length (WHInitED2K staleCtx)
    (zeroBytes 19456001) h32
  have hge : (zeroBytes 19456001).length ≥ (WHInitED2K staleCtx).cbChunkRemaining := by
    rw [zeroBytes_length, hrem]
    decide
  have hover : 9728000 < (zeroBytes 19456001).length - (WHInitED2K staleCtx).cbChunkRemaining := by
    rw [zeroBytes_length, hrem]
    decide
  have h3 := (h.2.2.1 hge).2.1
  have h4 := (h.2.2.2 hge hover).2.2.1
  rw [zeroBytes_length, hrem] at h3 h4
  exact ⟨h32, h4, h3⟩

/-- C16: a stream `S` of any length, split into pushes of at most 9,728,000 bytes
each, gets the reference two-level hash as its visible digest: `MD4(S)` below
one chunk, otherwise the MD4 of the digests of the `len(S) / C` full chunks
followed by the digest of the remaining `len(S) mod C` bytes. -/
theorem bounded_pushes_give_reference_hash (md4 : List BYTE → List BYTE)
    (hlen : ∀ x, (md4 x).length = 16) (ctx0 : WHCTXED2K)
    (S : List BYTE) (pushes : List (List BYTE)) (hsplit : pushes.flatten = S)
    (hle : ∀ p ∈ pushes, p.length ≤ 9728000) :
    visibleDigest (runED2K md4 ctx0 pushes) = some (refED2K md4 S) ∧
      (S.length < 9728000 → refED2K md4 S = md4 S) ∧
      (9728000 ≤ S.length → refED2K md4 S = md4 ((ed2kChunks S).map md4).flatten) ∧
      (ed2kChunks S).flatten = S ∧
      (ed2kChunks S).map List.length
        = List.replicate (S.length / 9728000) 9728000 ++ [S.length % 9728000] := by
  refine ⟨?_, ?_, ?_, (ed2kChunks_shape S).1, (ed2kChunks_shape S).2⟩
  · rw [runED2K_eq_ref_of_le_chunk hlen ctx0 pushes hle, hsplit]
  · intro h
    rw [refED2K, if_pos h]
  · intro h
    rw [refED2K, if_neg (by omega)]

theorem bounded_pushes_give_reference_hash_witness :
    [zeroBytes 9728000, [], [1, 2], zeroBytes 9727998].flatten
        = zeroBytes 9728000 ++ ([1, 2] ++ zeroBytes 9727998) ∧
      (∀ p ∈ [zeroBytes 9728000, [], [1, 2], zeroBytes 9727998], p.length ≤ 9728000) ∧
      visibleDigest (runED2K lengthDigest staleCtx
          [zeroBytes 9728000, [], [1, 2], zeroBytes 9727998])
        = some (refED2K lengthDigest (zeroBytes 9728000 ++ ([1, 2] ++ zeroBytes 9727998))) := by
  have hsplit : [zeroBytes 9728000, [], [1, 2], zeroBytes 9727998].flatten
      = zeroBytes 9728000 ++ ([1, 2] ++ zeroBytes 9727998) := by
    simp only [List.flatten_cons, List.flatten_nil, List.append_nil, List.nil_append]
  have hle : ∀ p ∈ [zeroBytes 9728000, [], [1, 2], zeroBytes 9727998],
      p.length ≤ 9728000 := by
    intro p hp
    simp only [List.mem_cons, List.mem_singleton, List.not_mem_nil, or_false] at hp
    rcases hp with hp | hp | hp | hp
    · rw [hp, zeroBytes_length]
    · rw [hp]
      decide
    · rw [hp]
      decide
    · rw [hp, zeroBytes_length]
      decide
  exact ⟨hsplit, hle,
    (bounded_pushes_give_reference_hash lengthDigest lengthDigest_length staleCtx _ _
      hsplit hle).1⟩

/-- C17: after `WHInitED2K` and pushes that each satisfy
`cbIn < cbChunkRemaining + 9728000` when made (as pushes of at most 9,728,000
bytes always do), after every call `1 <= cbChunkRemaining <= 9728000`,
`cbChunkRemaining = 9728000 - (total mod 9728000)`, the chunk engine has absorbed
`total mod 9728000` bytes since its last reset, and the final subtraction of the
next call does not wrap. -/
theorem remaining_counter_invariant (md4 : List BYTE → List BYTE) (ctx0 : WHCTXED2K)
    (pushes : List (List BYTE))
    (h : admissible md4 (WHInitED2K ctx0) pushes = true ∨
      ∀ p ∈ pushes, p.length ≤ 9728000) (k : Nat) :
    1 ≤ (pushAll md4 (WHInitED2K ctx0) (pushes.take k)).cbChunkRemaining ∧
      (pushAll md4 (WHInitED2K ctx0) (pushes.take k)).cbChunkRemaining ≤ 9728000 ∧
      (pushAll md4 (WHInitED2K ctx0) (pushes.take k)).cbChunkRemaining
        = 9728000 - (pushes.take k).flatten.length % 9728000 ∧
      (pushAll md4 (WHInitED2K ctx0) (pushes.take k)).ctxChunk.absorbed.length
        = (pushes.take k).flatten.length % 9728000 ∧
      ∀ p, pushes[k]? = some p →
        (finalSubOperands (pushAll md4 (WHInitED2K ctx0) (pushes.take k)) p).2
          ≤ (finalSubOperands (pushAll md4 (WHInitED2K ctx0) (pushes.take k)) p).1 ∧
        (WHUpdateED2K md4 (pushAll md4 (WHInitED2K ctx0) (pushes.take k)) p).cbChunkRemaining
          = (finalSubOperands (pushAll md4 (WHInitED2K ctx0) (pushes.take k)) p).1
            - (finalSubOperands (pushAll md4 (WHInitED2K ctx0) (pushes.take k)) p).2 := by
  have hadm : admissible md4 (WHInitED2K ctx0) pushes = true := by
    rcases h with h | h
    · exact h
    · exact admissible_of_le_chunk md4 pushes _ 0 (Counts.after_init ctx0) h
  have hc := Counts.pushAll_admissible md4 (pushes.take k) _ 0 (Counts.after_init ctx0)
    (admissible_take md4 pushes _ k hadm)
  rw [Nat.zero_add] at hc
  have hrem := hc.remaining
  have habs := hc.absorbed
  have hmod : (pushes.take k).flatten.length % 9728000 < 9728000 := Nat.mod_lt _ (by decide)
  refine ⟨by omega, by omega, hrem, habs, ?_⟩
  intro p hget
  exact (hc.step md4 p (admissible_get md4 pushes _ k p hadm hget)).2

theorem remaining_counter_invariant_witness :
    admissible lengthDigest (WHInitED2K staleCtx) [zeroBytes 9728001, [7, 8]] = true ∧
      (pushAll lengthDigest (WHInitED2K staleCtx)
          ([zeroBytes 9728001, [7, 8]].take 2)).cbChunkRemaining
        = 9728000 - ([zeroBytes 9728001, [7, 8]].take 2).flatten.length % 9728000 ∧
      (pushAll lengthDigest (WHInitED2K staleCtx)
          ([zeroBytes 9728001, [7, 8]].take 2)).ctxChunk.absorbed.length
        = ([zeroBytes 9728001, [7, 8]].take 2).flatten.length % 9728000 := by
  have hrem0 : (WHInitED2K staleCtx).cbChunkRemaining = 9728000 := by decide
  have h1 : (zeroBytes 9728001).length < (WHInitED2K staleCtx).cbChunkRemaining + 9728000 := by
    rw [zeroBytes_length, hrem0]
    decide
  have hrem1 : (WHUpdateED2K lengthDigest (WHInitED2K staleCtx)
      (zeroBytes 9728001)).cbChunkRemaining = 9727999 := by
    rw [WHUpdateED2K_of_ge lengthDigest _ _ (by rw [zeroBytes_length, hrem0]; decide),
      zeroBytes_length, hrem0]
    decide
  have hadm : admissible lengthDigest (WHInitED2K staleCtx) [zeroBytes 9728001, [7, 8]]
      = true := by
    simp only [admissible, Bool.and_eq_true, decide_eq_true_eq, hrem1, and_true]
    exact ⟨h1, by decide⟩
  have h := remaining_counter_invariant lengthDigest staleCtx [zeroBytes 9728001, [7, 8]]
    (Or.inl hadm) 2
  exact ⟨hadm, h.2.2.1, h.2.2.2.1⟩

end WinHash
